import Mathlib

/-!
# Changed-module resolution (`main.go`)

A shallow embedding of the change-to-module resolution code of `main.go`:
`mergeMaps`, `uncommittedModulePomFiles`, `getPomFiles`, `getTree`, `getPomFile`
and the part of `main` that decides whether the history diff is skipped.

Conventions of the embedding.

* A Go `string` is a sequence of bytes.  It is modelled by a Lean `String` in which
  every character stands for one byte, so `len s` is `s.length` and `s[:n]` keeps the
  first `n` characters.
* The Go standard library, the file system and the git2go binding are not part of the
  program.  They are parameters: `OS` (for `filepath.Join`, `ioutil.ReadDir` and the
  descriptor reader) and `Repository` (for the git2go calls).
* A function that calls into the outside world returns a `Run α`: the calls it made, in
  order, and either a value or the error that ended it.  `logFatal(err)` with a non-nil
  `err` ends the whole run with that error.
* Log output (`logger.Printf`, `fmt.Printf`, `color.Set`) is not modelled.
-/

namespace BuildEvergage

/-! ## Errors and runs -/

/-- Errors that can end a call or the whole run. -/
inductive GoError where
  /-- An error built by `fmt.Errorf`, with its message. -/
  | errorf (msg : String)
  /-- An error handed back by the git2go binding or by the operating system. -/
  | lib (msg : String)
  /-- A Go run-time panic (assignment to a nil map, slice bounds out of range). -/
  | runtimePanic (msg : String)
  deriving DecidableEq, Repr

deriving instance DecidableEq for Except

/-- Calls into the outside world, with their arguments. -/
inductive Call where
  | ReadDir (dir : String)
  | ReadPom (pomFile : String)
  | RevparseSingle (spec : String)
  | AsCommit (obj : Nat)
  | CommitTree (commit : Nat)
  | NewOid (s : String)
  | LookupCommit (oid : Nat)
  | DiffTreeToTree (oldTree newTree : Nat)
  | StatusList
  deriving DecidableEq, Repr

/-- The outcome of running a piece of the program: the outside calls made, in order, and
the value produced or the error that stopped it. -/
structure Run (α : Type) where
  calls : List Call
  out : Except GoError α
  deriving DecidableEq

namespace Run

/-- A step that makes no outside call and produces `a`. -/
def ret {α : Type} (a : α) : Run α := ⟨[], .ok a⟩

/-- A step that stops with error `e` without an outside call. -/
def fail {α : Type} (e : GoError) : Run α := ⟨[], .error e⟩

/-- One outside call `c` whose answer is `r`: a value, or the message of the error the
library returned. -/
def call {α : Type} (c : Call) (r : Except String α) : Run α :=
  match r with
  | .ok a => ⟨[c], .ok a⟩
  | .error msg => ⟨[c], .error (.lib msg)⟩

/-- Sequencing: `f` runs only when `x` produced a value. -/
def andThen {α β : Type} (x : Run α) (f : α → Run β) : Run β :=
  match x.out with
  | .ok a => ⟨x.calls ++ (f a).calls, (f a).out⟩
  | .error e => ⟨x.calls, .error e⟩

/-- A pure computation that may end in an error, as a run without outside calls. -/
def ofExcept {α : Type} (r : Except GoError α) : Run α := ⟨[], r⟩

end Run

instance : Monad Run where
  pure := Run.ret
  bind := Run.andThen

/-! ## Go strings -/

/-- Go `strings.HasPrefix` on character sequences. -/
def hasPrefixChars : List Char → List Char → Bool
  | _, [] => true
  | [], _ :: _ => false
  | c :: cs, p :: ps => (c == p) && hasPrefixChars cs ps

/-- Position of the first occurrence of `sub` in a character sequence, if any. -/
def indexChars (sub : List Char) : List Char → Option Nat
  | [] => if sub = [] then some 0 else none
  | c :: cs =>
    if hasPrefixChars (c :: cs) sub then some 0
    else (indexChars sub cs).map (· + 1)

/-- Go `strings.Index(s, substr)`: the index of the first instance of `substr` in `s`,
or `-1` if `substr` is not present in `s`. -/
def Index (s substr : String) : Int :=
  match indexChars substr.data s.data with
  | some i => (i : Int)
  | none => -1

/-- Go `strings.Contains(s, substr)`, which is `Index(s, substr) >= 0`. -/
def Contains (s substr : String) : Bool := decide (0 ≤ Index s substr)

/-- Go slice expression `s[:n]`; it panics when `n` is out of range. -/
def sliceTo (s : String) (n : Int) : Except GoError String :=
  if 0 ≤ n ∧ n ≤ (s.length : Int) then .ok ⟨s.data.take n.toNat⟩
  else .error (.runtimePanic "slice bounds out of range")

/-! ## Go maps -/

/-- A Go `map[string]V`: either the nil map or an allocated map.  The entries of an
allocated map are listed in the order in which `range` visits them; Go leaves that order
unspecified, so nothing below depends on it. -/
inductive GoMap (V : Type) where
  | nilMap
  | alloc (entries : List (String × V))
  deriving DecidableEq, Repr

/-- Store `k ↦ v` in a list of entries: overwrite the entry of `k` when there is one,
add a new entry otherwise. -/
def setEntry {V : Type} (k : String) (v : V) : List (String × V) → List (String × V)
  | [] => [(k, v)]
  | e :: es => if e.1 = k then (k, v) :: es else e :: setEntry k v es

namespace GoMap

variable {V : Type}

/-- The entries of a map; the nil map has none. -/
def entries : GoMap V → List (String × V)
  | nilMap => []
  | alloc es => es

/-- The keys of a map, in `range` order. -/
def keys (m : GoMap V) : List String := m.entries.map Prod.fst

/-- Go `len(m)`. -/
def len (m : GoMap V) : Nat := m.entries.length

/-- Go `m[k] = v`; assignment to an entry in a nil map panics. -/
def assign (m : GoMap V) (k : String) (v : V) : Except GoError (GoMap V) :=
  match m with
  | nilMap => .error (.runtimePanic "assignment to entry in nil map")
  | alloc es => .ok (alloc (setEntry k v es))

/-- A map value is well formed when no key occurs twice. -/
def WF (m : GoMap V) : Prop := m.keys.Nodup

instance decidableWF (m : GoMap V) : Decidable m.WF :=
  inferInstanceAs (Decidable m.keys.Nodup)

end GoMap

/-! ## The outside world -/

/-- The standard-library and file-system operations the program uses. -/
structure OS where
  /-- The function `filepath.Join(a, b)`. -/
  Join : String → String → String
  /-- The function `ioutil.ReadDir(dir)`: the names of the entries of `dir`, or an error. -/
  ReadDir : String → Except String (List String)
  /-- Reading a descriptor file and parsing it (`ioutil.ReadFile`, `xml.Unmarshal`): its
  `artifactId`, or an error. -/
  ReadPom : String → Except String String

/-! ## `getPomFile` and `getPomFiles` -/

/-- The constant `PomFile`. -/
def PomFile : String := "pom.xml"

/-- The loop `for _, info := range dir` of `getPomFile`: the joined descriptor path at
the first entry named `PomFile`, the empty string when the loop ends without one. -/
def findPomEntry (os : OS) (pfd : String) : List String → String
  | [] => ""
  | name :: rest => if name = PomFile then os.Join pfd PomFile else findPomEntry os pfd rest

/-- The function `getPomFile(repo, path)`. -/
def getPomFile (os : OS) (repo path : String) : Run String :=
  if Contains path PomFile then
    pure path
  else
    let indexOfSrc := Index path "/src/"
    if indexOfSrc = -1 then
      pure ""
    else do
      let relativeDir ← Run.ofExcept (sliceTo path indexOfSrc)
      let pfd := os.Join repo relativeDir
      let dir ← Run.call (.ReadDir pfd) (os.ReadDir pfd)
      pure (findPomEntry os pfd dir)

/-- The loop `for _, file := range files` of `getPomFiles`, from the map built so far. -/
def getPomFilesLoop (os : OS) (sourceRoot : String) :
    List String → GoMap Unit → Run (GoMap Unit)
  | [], pomFileMap => pure pomFileMap
  | file :: rest, pomFileMap => do
    let pomFile ← getPomFile os sourceRoot file
    if pomFile = "" then
      getPomFilesLoop os sourceRoot rest pomFileMap
    else do
      let pomFileMap ← Run.ofExcept (pomFileMap.assign pomFile ())
      getPomFilesLoop os sourceRoot rest pomFileMap

/-- The function `getPomFiles(files, sourceRoot)`. -/
def getPomFiles (os : OS) (files : List String) (sourceRoot : String) : Run (GoMap Unit) :=
  getPomFilesLoop os sourceRoot files (.alloc [])

/-! ## git2go values -/

/-- The type `git.DiffFile`; only its path is used. -/
structure DiffFile where
  Path : String
  deriving DecidableEq, Repr

/-- The type `git.DiffDelta`; only the two sides are used. -/
structure DiffDelta where
  OldFile : DiffFile
  NewFile : DiffFile
  deriving DecidableEq, Repr

/-- The type `git.StatusEntry`: the status flags of one path and its two deltas. -/
structure StatusEntry where
  Status : Nat
  HeadToIndex : DiffDelta
  IndexToWorkdir : DiffDelta
  deriving DecidableEq, Repr

/-! The `git.Status` flags, with the values of libgit2's `git_status_t`. -/

def StatusIndexNew : Nat := 1
def StatusIndexModified : Nat := 2
def StatusIndexDeleted : Nat := 4
def StatusIndexRenamed : Nat := 8
def StatusIndexTypeChange : Nat := 16
def StatusWtNew : Nat := 128
def StatusWtModified : Nat := 256
def StatusWtDeleted : Nat := 512
def StatusWtTypeChange : Nat := 1024
def StatusWtRenamed : Nat := 2048

/-- Flag `flag` is set in the status value `status` (`status & flag != 0`). -/
def hasFlag (status flag : Nat) : Bool := status &&& flag != 0

/-- The git2go operations the program uses.  Objects, commits, trees and object ids are
handles (numbers); a diff is the list of its deltas and a status list the list of its
entries, so `EntryCount` is the length and `ByIndex(i)` the `i`-th entry. -/
structure Repository where
  RevparseSingle : String → Except String Nat
  AsCommit : Nat → Except String Nat
  CommitTree : Nat → Except String Nat
  NewOid : String → Except String Nat
  LookupCommit : Nat → Except String Nat
  DiffTreeToTree : Nat → Nat → Except String (List DiffDelta)
  StatusList : Except String (List StatusEntry)

/-! ## `mergeMaps` -/

/-- The loop `for k, v := range map1 { map2[k] = v }` of `mergeMaps`. -/
def mergeMapsLoop {V : Type} : List (String × V) → GoMap V → Except GoError (GoMap V)
  | [], map2 => .ok map2
  | (k, v) :: rest, map2 =>
    match map2.assign k v with
    | .ok map2 => mergeMapsLoop rest map2
    | .error e => .error e

/-- The function `mergeMaps(map1, map2)`. -/
def mergeMaps {V : Type} (map1 map2 : GoMap V) : Except GoError (GoMap V) :=
  if map1.len = 0 then .ok map2
  else if map2.len = 0 then .ok map1
  else mergeMapsLoop map1.entries map2

/-! ## `diffModulePomFiles` and `uncommittedModulePomFiles` -/

/-- The function `diffModulePomFiles(diff, sourceRoot)`: the new-side path of every delta
goes to `getPomFiles`. -/
def diffModulePomFiles (os : OS) (diff : List DiffDelta) (sourceRoot : String) :
    Run (GoMap Unit) :=
  getPomFiles os (diff.map (fun delta => delta.NewFile.Path)) sourceRoot

/-- The loop of `uncommittedModulePomFiles` over the status list: the slice `files` it
builds.  The `switch index.Status` compares the whole status value with each listed
constant. -/
def uncommittedFiles : List StatusEntry → List String
  | [] => []
  | index :: rest =>
    if index.Status ∈ [StatusWtModified, StatusWtDeleted, StatusWtTypeChange,
        StatusWtRenamed, StatusWtNew] then
      index.IndexToWorkdir.NewFile.Path :: uncommittedFiles rest
    else if index.Status ∈ [StatusIndexNew, StatusIndexModified, StatusIndexDeleted,
        StatusIndexRenamed, StatusIndexTypeChange] then
      index.HeadToIndex.NewFile.Path :: uncommittedFiles rest
    else
      uncommittedFiles rest

/-- The function `uncommittedModulePomFiles(repository, sourceRoot)`. -/
def uncommittedModulePomFiles (os : OS) (repository : Repository) (sourceRoot : String) :
    Run (GoMap Unit) := do
  let list ← Run.call .StatusList repository.StatusList
  getPomFiles os (uncommittedFiles list) sourceRoot

/-! ## `getTree` -/

/-- The error `fmt.Errorf("commit [%s] is an invalid commit", commit)`. -/
def invalidCommit (commit : String) : GoError :=
  .errorf ("commit [" ++ commit ++ "] is an invalid commit")

/-- The function `getTree(commit, repository)`. -/
def getTree (commit : String) (repository : Repository) : Run Nat :=
  if commit.length = 7 then do
    let obj ← Run.call (.RevparseSingle commit) (repository.RevparseSingle commit)
    let commit ← Run.call (.AsCommit obj) (repository.AsCommit obj)
    let tree ← Run.call (.CommitTree commit) (repository.CommitTree commit)
    pure tree
  else if commit.length = 40 then do
    let oid ← Run.call (.NewOid commit) (repository.NewOid commit)
    let lookupCommit ← Run.call (.LookupCommit oid) (repository.LookupCommit oid)
    let tree ← Run.call (.CommitTree lookupCommit) (repository.CommitTree lookupCommit)
    pure tree
  else
    Run.fail (invalidCommit commit)

/-! ## `main`, from the comparison of the two commits to the module list -/

/-- The function `getMavenModuleName(pomFile)`. -/
def getMavenModuleName (os : OS) (pomFile : String) : Run String :=
  Run.call (.ReadPom pomFile) (os.ReadPom pomFile)

/-- Lines 62 to 73 of `main`, the body of `if !skipDiffCheck`: both trees are resolved,
diffed, and the diff is mapped to descriptor locations. -/
def mainHistoryDiff (os : OS) (repository : Repository)
    (sourceRoot oldBuildCommit latestCommit : String) : Run (GoMap Unit) := do
  let oldBuildTree ← getTree oldBuildCommit repository
  let newTree ← getTree latestCommit repository
  let diff ← Run.call (.DiffTreeToTree oldBuildTree newTree)
    (repository.DiffTreeToTree oldBuildTree newTree)
  diffModulePomFiles os diff sourceRoot

/-- Lines 54 to 82 of `main`: from `skipDiffCheck` to `allPomFiles`. -/
def mainAllPomFiles (os : OS) (repository : Repository)
    (sourceRoot oldBuildCommit latestCommit : String) : Run (GoMap Unit) := do
  let head7 ← Run.ofExcept (sliceTo latestCommit 7)
  let skipDiffCheck : Bool := decide (oldBuildCommit = head7)
  let diffModulePomFilesMap ←
    if !skipDiffCheck then
      mainHistoryDiff os repository sourceRoot oldBuildCommit latestCommit
    else
      pure GoMap.nilMap
  let uncommitedModulePomFiles ← uncommittedModulePomFiles os repository sourceRoot
  Run.ofExcept (mergeMaps diffModulePomFilesMap uncommitedModulePomFiles)

/-- The loop `for pomFile := range allPomFiles` of `main`, from the slice `modules` built
so far. -/
def mainModulesLoop (os : OS) : List String → List String → Run (List String)
  | [], modules => pure modules
  | pomFile :: rest, modules => do
    let mavenModuleName ← getMavenModuleName os pomFile
    mainModulesLoop os rest (modules ++ [mavenModuleName])

/-- Lines 54 to 86 of `main`: the slice `modules`. -/
def mainModules (os : OS) (repository : Repository)
    (sourceRoot oldBuildCommit latestCommit : String) : Run (List String) := do
  let allPomFiles ← mainAllPomFiles os repository sourceRoot oldBuildCommit latestCommit
  mainModulesLoop os allPomFiles.keys []

/-! ## A concrete `filepath.Join` (Unix) for evaluating the code on examples -/

/-- Split a character sequence at every `/`. -/
def splitSlash : List Char → List (List Char)
  | [] => [[]]
  | c :: cs =>
    match splitSlash cs with
    | [] => [[]]
    | x :: xs => if c = '/' then [] :: x :: xs else (c :: x) :: xs

/-- One path element of `filepath.Clean`; `out` holds the elements kept so far, last
first. -/
def cleanStep (rooted : Bool) (out : List (List Char)) (elem : List Char) :
    List (List Char) :=
  if elem = [] ∨ elem = ['.'] then out
  else if elem = ['.', '.'] then
    match out with
    | [] => if rooted then [] else [elem]
    | top :: rest => if top = ['.', '.'] then elem :: out else rest
  else elem :: out

/-- Go `filepath.Clean` on Unix. -/
def Clean (path : String) : String :=
  if path = "" then "."
  else
    let rooted := hasPrefixChars path.data ['/']
    let out := ((splitSlash path.data).foldl (cleanStep rooted) []).reverse
    let body : String := ⟨List.intercalate ['/'] out⟩
    if rooted then "/" ++ body
    else if out = [] then "."
    else body

/-- Go `filepath.Join` on Unix, for two elements. -/
def unixJoin (a b : String) : String :=
  if a ≠ "" then Clean (a ++ "/" ++ b)
  else if b ≠ "" then Clean b
  else ""

/-- A file system given by the list of its directories with their entry names; listing
any other directory is an error. -/
def listingOS (dirs : List (String × List String)) (poms : List (String × String)) : OS where
  Join := unixJoin
  ReadDir := fun d =>
    match dirs.lookup d with
    | some names => .ok names
    | none => .error ("open " ++ d ++ ": no such file or directory")
  ReadPom := fun f =>
    match poms.lookup f with
    | some artifactId => .ok artifactId
    | none => .error ("open " ++ f ++ ": no such file or directory")

/-! ## Example worlds, for evaluating the code on concrete inputs -/

/-- A delta whose two sides have the same path. -/
def deltaOf (path : String) : DiffDelta := ⟨⟨path⟩, ⟨path⟩⟩

/-- A status entry with status value `status` for `path`. -/
def entryOf (status : Nat) (path : String) : StatusEntry :=
  ⟨status, deltaOf path, deltaOf path⟩

/-- A repository checked out at `/repo` with one module directory `M` that has a
descriptor; the process runs in `/repo`, so `M/pom.xml` and `/repo/M/pom.xml` name the
same file, whose `artifactId` is `m`. -/
def osModuleM : OS :=
  listingOS [("/repo/M", ["pom.xml", "src"])] [("M/pom.xml", "m"), ("/repo/M/pom.xml", "m")]

/-- A repository at `/repo` where directory `M` has a `src` directory and no descriptor,
and directory `N` has both. -/
def osNoDescriptor : OS :=
  listingOS [("/repo/M", ["src"]), ("/repo/N", ["pom.xml", "src"])] []

/-- A git repository in which every lookup succeeds, the tree diff is `diff` and the
status list is `status`. -/
def repoOf (diff : List DiffDelta) (status : List StatusEntry) : Repository where
  RevparseSingle := fun _ => .ok 1
  AsCommit := fun obj => .ok (obj + 10)
  CommitTree := fun c => .ok (c + 100)
  NewOid := fun _ => .ok 2
  LookupCommit := fun oid => .ok (oid + 10)
  DiffTreeToTree := fun _ _ => .ok diff
  StatusList := .ok status

/-- A git repository in which no abbreviated or full commit id can be found. -/
def repoWithoutCommits (status : List StatusEntry) : Repository where
  RevparseSingle := fun _ => .error "revspec not found"
  AsCommit := fun obj => .ok (obj + 10)
  CommitTree := fun c => .ok (c + 100)
  NewOid := fun _ => .ok 2
  LookupCommit := fun _ => .error "object not found"
  DiffTreeToTree := fun _ _ => .ok []
  StatusList := .ok status

/-! ## Auxiliary definitions for the proofs -/

/-- One round of the loop of `getPomFiles`. -/
def pomStep (os : OS) (sourceRoot file : String) (pomFileMap : GoMap Unit) :
    Run (GoMap Unit) :=
  (getPomFile os sourceRoot file).andThen (fun pomFile =>
    if pomFile = "" then Run.ret pomFileMap
    else Run.ofExcept (pomFileMap.assign pomFile ()))

/-- A call of the working-tree scan: the status list, or a directory listing. -/
def isScanCall (c : Call) : Prop := c = Call.StatusList ∨ ∃ d, c = Call.ReadDir d

/-! ## Words of the specification about paths -/

/-- The string `sub` occurs in `s`. -/
def Occurs (sub s : String) : Prop := ∃ a b : String, s = a ++ sub ++ b

/-- The string `pre` is the part of `s` before the first occurrence of `sub`: `sub`
follows `pre` in `s`, and no occurrence of `sub` starts earlier. -/
def BeforeFirst (sub s pre : String) : Prop :=
  (∃ rest : String, s = pre ++ sub ++ rest) ∧
    ∀ a b : String, s = a ++ sub ++ b → pre.length ≤ a.length

/-- The final component of a path: what follows its last `/`. -/
def finalComponent (path : String) : String :=
  ⟨(path.data.reverse.takeWhile (fun c => c != '/')).reverse⟩

/-! ## Facts about the string functions -/

theorem hasPrefixChars_iff (s p : List Char) :
    hasPrefixChars s p = true ↔ ∃ t, s = p ++ t := by
  induction p generalizing s with
  | nil => simp [hasPrefixChars]
  | cons x xs ih =>
    cases s with
    | nil => simp [hasPrefixChars]
    | cons c cs =>
      simp only [hasPrefixChars, Bool.and_eq_true, beq_iff_eq, ih, List.cons_append,
        List.cons.injEq]
      constructor
      · rintro ⟨rfl, t, rfl⟩
        exact ⟨t, rfl, rfl⟩
      · rintro ⟨t, rfl, rfl⟩
        exact ⟨rfl, t, rfl⟩

theorem indexChars_some (sub : List Char) :
    ∀ (s : List Char) (i : Nat), indexChars sub s = some i →
      (∃ rest, s = s.take i ++ sub ++ rest) ∧
        ∀ a b, s = a ++ sub ++ b → i ≤ a.length := by
  intro s
  induction s with
  | nil =>
    intro i h
    by_cases hs : sub = []
    · simp [indexChars, hs] at h
      subst h
      exact ⟨⟨[], by simp [hs]⟩, fun _ _ _ => Nat.zero_le _⟩
    · simp [indexChars, hs] at h
  | cons c cs ih =>
    intro i h
    by_cases hp : hasPrefixChars (c :: cs) sub = true
    · simp [indexChars, hp] at h
      subst h
      obtain ⟨t, ht⟩ := (hasPrefixChars_iff _ _).1 hp
      exact ⟨⟨t, by simpa using ht⟩, fun _ _ _ => Nat.zero_le _⟩
    · simp only [indexChars, hp, Bool.false_eq_true, if_false, Option.map_eq_some'] at h
      obtain ⟨j, hj, rfl⟩ := h
      obtain ⟨⟨rest, hrest⟩, hmin⟩ := ih j hj
      refine ⟨⟨rest, ?_⟩, ?_⟩
      · simp only [List.take_succ_cons, List.cons_append, List.cons.injEq, true_and]
        exact hrest
      · intro a b hab
        cases a with
        | nil =>
          exact absurd ((hasPrefixChars_iff _ _).2 ⟨b, by simpa using hab⟩) hp
        | cons x a' =>
          simp only [List.cons_append, List.cons.injEq] at hab
          have := hmin a' b hab.2
          simpa using this

theorem indexChars_none (sub : List Char) :
    ∀ (s : List Char), indexChars sub s = none → ∀ a b, s ≠ a ++ sub ++ b := by
  intro s
  induction s with
  | nil =>
    intro h a b hab
    have hs : sub = [] := by
      have := congrArg List.length hab
      simp at this
      exact List.length_eq_zero.1 (by omega)
    simp [indexChars, hs] at h
  | cons c cs ih =>
    intro h a b hab
    by_cases hp : hasPrefixChars (c :: cs) sub = true
    · simp [indexChars, hp] at h
    · simp only [indexChars, hp, Bool.false_eq_true, if_false, Option.map_eq_none'] at h
      cases a with
      | nil => exact hp ((hasPrefixChars_iff _ _).2 ⟨b, by simpa using hab⟩)
      | cons x a' =>
        simp only [List.cons_append, List.cons.injEq] at hab
        exact ih h a' b hab.2

/-- When `pre` is the part before the first occurrence of `sub`, `indexChars` finds
exactly its length. -/
theorem indexChars_first (sub pre rest : List Char)
    (hmin : ∀ a b, pre ++ sub ++ rest = a ++ sub ++ b → pre.length ≤ a.length) :
    indexChars sub (pre ++ sub ++ rest) = some pre.length := by
  cases h : indexChars sub (pre ++ sub ++ rest) with
  | none => exact absurd rfl (indexChars_none sub _ h pre rest)
  | some i =>
    obtain ⟨⟨r, hr⟩, hle⟩ := indexChars_some sub _ i h
    have h1 : i ≤ pre.length := hle pre rest rfl
    have h2 : pre.length ≤ ((pre ++ sub ++ rest).take i).length := hmin _ r hr
    have h3 : ((pre ++ sub ++ rest).take i).length ≤ i := by
      rw [List.length_take]; exact Nat.min_le_left _ _
    congr 1
    omega

/-- A string has an occurrence of `sub` exactly when `Contains` says so. -/
theorem Contains_iff (s sub : String) :
    Contains s sub = true ↔ ∃ a b : String, s = a ++ sub ++ b := by
  unfold Contains Index
  cases h : indexChars sub.data s.data with
  | none =>
    simp only [Int.reduceNeg, Left.nonneg_neg_iff, Int.reduceLE, decide_False,
      Bool.false_eq_true, false_iff, not_exists]
    intro a b hab
    apply indexChars_none sub.data s.data h a.data b.data
    rw [hab]
    simp
  | some i =>
    simp only [Int.ofNat_zero_le, decide_True, true_iff]
    obtain ⟨⟨r, hr⟩, _⟩ := indexChars_some sub.data s.data i h
    refine ⟨⟨s.data.take i⟩, ⟨r⟩, ?_⟩
    apply String.ext
    simpa using hr

theorem occurs_iff_Contains (sub s : String) : Occurs sub s ↔ Contains s sub = true :=
  (Contains_iff s sub).symm

theorem Index_of_not_occurs (sub s : String) (h : ¬ Occurs sub s) : Index s sub = -1 := by
  have hc : ¬ Contains s sub = true := fun hc => h ((Contains_iff s sub).1 hc)
  unfold Contains at hc
  unfold Index at hc ⊢
  cases hi : indexChars sub.data s.data with
  | none => rfl
  | some i => simp [hi] at hc

theorem Index_of_beforeFirst (sub s pre : String) (h : BeforeFirst sub s pre) :
    Index s sub = (pre.length : Int) := by
  obtain ⟨⟨rest, hs⟩, hmin⟩ := h
  have hd : s.data = pre.data ++ sub.data ++ rest.data := by rw [hs]; simp
  have hi : indexChars sub.data s.data = some pre.data.length := by
    rw [hd]
    apply indexChars_first
    intro a b hab
    have := hmin ⟨a⟩ ⟨b⟩ (by apply String.ext; rw [hd, hab]; simp)
    simpa using this
  unfold Index
  rw [hi]
  rfl

theorem sliceTo_of_beforeFirst (sub s pre : String) (h : BeforeFirst sub s pre) :
    sliceTo s (pre.length : Int) = .ok pre := by
  obtain ⟨⟨rest, hs⟩, _⟩ := h
  have hd : s.data = pre.data ++ sub.data ++ rest.data := by rw [hs]; simp
  have hlen : pre.length ≤ s.length := by
    show pre.data.length ≤ s.data.length
    rw [hd]; simp
  unfold sliceTo
  rw [if_pos ⟨Int.ofNat_zero_le _, by exact_mod_cast hlen⟩]
  congr 1
  apply String.ext
  show List.take (pre.length : Int).toNat s.data = pre.data
  rw [hd, Int.toNat_ofNat, List.append_assoc]
  exact List.take_left' rfl

/-- The part before the first occurrence, read off the position `indexChars` computes. -/
theorem beforeFirst_of_indexChars (sub s : String) (i : Nat)
    (h : indexChars sub.data s.data = some i) : BeforeFirst sub s ⟨s.data.take i⟩ := by
  obtain ⟨⟨r, hr⟩, hmin⟩ := indexChars_some sub.data s.data i h
  refine ⟨⟨⟨r⟩, ?_⟩, ?_⟩
  · apply String.ext
    simpa using hr
  · intro a b hab
    have h1 : i ≤ a.data.length := hmin a.data b.data (by rw [hab]; simp)
    have h2 : (String.mk (s.data.take i)).length ≤ i := by
      show (s.data.take i).length ≤ i
      rw [List.length_take]; exact Nat.min_le_left _ _
    exact le_trans h2 h1

theorem exists_beforeFirst (sub s : String) (h : Occurs sub s) :
    ∃ pre, BeforeFirst sub s pre := by
  have hc := (Contains_iff s sub).2 h
  unfold Contains Index at hc
  cases hi : indexChars sub.data s.data with
  | none => simp [hi] at hc
  | some i => exact ⟨_, beforeFirst_of_indexChars sub s i hi⟩

theorem occurs_of_finalComponent (path name : String) (h : finalComponent path = name) :
    Occurs name path := by
  refine ⟨⟨(path.data.reverse.dropWhile (fun c => c != '/')).reverse⟩, "", ?_⟩
  apply String.ext
  have h1 : name.data = (path.data.reverse.takeWhile (fun c => c != '/')).reverse := by
    rw [← h]; rfl
  have h2 := List.takeWhile_append_dropWhile (fun c => c != '/') path.data.reverse
  have h3 := congrArg List.reverse h2
  simp only [List.reverse_append, List.reverse_reverse] at h3
  simp only [String.data_append, h1]
  simpa using h3.symm

/-! ## Facts about runs -/

theorem Run.pure_eq {α : Type} (a : α) : (pure a : Run α) = Run.ret a := rfl

theorem Run.bind_eq {α β : Type} (x : Run α) (f : α → Run β) :
    x >>= f = Run.andThen x f := rfl

theorem Run.ret_andThen {α β : Type} (a : α) (f : α → Run β) :
    (Run.ret a).andThen f = f a := by
  simp [Run.ret, Run.andThen]

theorem Run.andThen_ret {α : Type} (x : Run α) : x.andThen Run.ret = x := by
  obtain ⟨c, o⟩ := x
  cases o <;> simp [Run.ret, Run.andThen]

theorem Run.andThen_assoc {α β γ : Type} (x : Run α) (f : α → Run β) (g : β → Run γ) :
    (x.andThen f).andThen g = x.andThen (fun a => (f a).andThen g) := by
  obtain ⟨c, o⟩ := x
  cases o with
  | error e => simp [Run.andThen]
  | ok a =>
    simp only [Run.andThen]
    cases (f a).out <;> simp

theorem Run.andThen_out_error {α β : Type} (x : Run α) (f : α → Run β) (e : GoError)
    (h : x.out = .error e) : (x.andThen f).out = .error e := by
  simp [Run.andThen, h]

theorem Run.andThen_out_ok {α β : Type} (x : Run α) (f : α → Run β) (a : α)
    (h : x.out = .ok a) : (x.andThen f).out = (f a).out := by
  simp [Run.andThen, h]

theorem Run.andThen_calls_ok {α β : Type} (x : Run α) (f : α → Run β) (a : α)
    (h : x.out = .ok a) : (x.andThen f).calls = x.calls ++ (f a).calls := by
  simp [Run.andThen, h]

theorem Run.andThen_calls_error {α β : Type} (x : Run α) (f : α → Run β) (e : GoError)
    (h : x.out = .error e) : (x.andThen f).calls = x.calls := by
  simp [Run.andThen, h]

/-- Two runs with the same outcomes at every step have the same outcome when sequenced. -/
theorem Run.andThen_out_congr {α β : Type} (x y : Run α) (f g : α → Run β)
    (hxy : x.out = y.out) (hfg : ∀ a, (f a).out = (g a).out) :
    (x.andThen f).out = (y.andThen g).out := by
  cases hx : x.out with
  | error e =>
    rw [Run.andThen_out_error x f e hx, Run.andThen_out_error y g e (hxy ▸ hx)]
  | ok a =>
    rw [Run.andThen_out_ok x f a hx, Run.andThen_out_ok y g a (hxy ▸ hx)]
    exact hfg a

/-! ## Facts about `getPomFile` and `getPomFiles` -/

theorem findPomEntry_mem (os : OS) (pfd : String) (dir : List String)
    (h : PomFile ∈ dir) : findPomEntry os pfd dir = os.Join pfd PomFile := by
  induction dir with
  | nil => simp at h
  | cons name rest ih =>
    by_cases hn : name = PomFile
    · simp [findPomEntry, hn]
    · have : PomFile ∈ rest := by
        rcases List.mem_cons.1 h with h | h
        · exact absurd h.symm hn
        · exact h
      simp [findPomEntry, hn, ih this]

theorem findPomEntry_not_mem (os : OS) (pfd : String) (dir : List String)
    (h : PomFile ∉ dir) : findPomEntry os pfd dir = "" := by
  induction dir with
  | nil => rfl
  | cons name rest ih =>
    have hn : name ≠ PomFile := fun hn => h (by simp [hn])
    have hr : PomFile ∉ rest := fun hr => h (List.mem_cons_of_mem _ hr)
    simp [findPomEntry, hn, ih hr]

theorem getPomFile_of_occurs_pom (os : OS) (repo path : String)
    (h : Occurs PomFile path) : getPomFile os repo path = ⟨[], .ok path⟩ := by
  have hc : Contains path PomFile = true := (Contains_iff _ _).2 h
  simp [getPomFile, hc, Run.pure_eq, Run.ret]

theorem getPomFile_out_of_convention (os : OS) (repo path : String)
    (hsrc : ¬ Occurs "/src/" path) (hpom : ¬ Occurs PomFile path) :
    getPomFile os repo path = ⟨[], .ok ""⟩ := by
  have hc : Contains path PomFile = false := by
    cases h : Contains path PomFile with
    | false => rfl
    | true => exact absurd ((Contains_iff _ _).1 h) hpom
  have hi : Index path "/src/" = -1 := Index_of_not_occurs _ _ hsrc
  simp [getPomFile, hc, hi, Run.pure_eq, Run.ret]

/-- Under the `/src/` marker the module root is listed, and the answer is read off the
listing. -/
theorem getPomFile_under_src (os : OS) (repo path pre : String)
    (hpre : BeforeFirst "/src/" path pre) (hpom : ¬ Occurs PomFile path) :
    getPomFile os repo path =
      (Run.call (.ReadDir (os.Join repo pre)) (os.ReadDir (os.Join repo pre))).andThen
        (fun dir => Run.ret (findPomEntry os (os.Join repo pre) dir)) := by
  have hc : Contains path PomFile = false := by
    cases h : Contains path PomFile with
    | false => rfl
    | true => exact absurd ((Contains_iff _ _).1 h) hpom
  have hi : Index path "/src/" = (pre.length : Int) := Index_of_beforeFirst _ _ _ hpre
  have hs : sliceTo path (pre.length : Int) = .ok pre := sliceTo_of_beforeFirst _ _ _ hpre
  have hne : ¬ ((pre.length : Int) = -1) := by omega
  simp only [getPomFile, hc, Bool.false_eq_true, if_false, hi, hne, hs, Run.bind_eq,
    Run.pure_eq, Run.ofExcept]
  rfl

theorem getPomFilesLoop_cons (os : OS) (sourceRoot file : String) (rest : List String)
    (m : GoMap Unit) :
    getPomFilesLoop os sourceRoot (file :: rest) m =
      (pomStep os sourceRoot file m).andThen (getPomFilesLoop os sourceRoot rest) := by
  rw [getPomFilesLoop, pomStep, Run.bind_eq, Run.andThen_assoc]
  congr 1
  funext pomFile
  by_cases h : pomFile = ""
  · simp [h, Run.ret_andThen]
  · simp [h, Run.bind_eq]

theorem getPomFilesLoop_append (os : OS) (sourceRoot : String) (a b : List String)
    (m : GoMap Unit) :
    getPomFilesLoop os sourceRoot (a ++ b) m =
      (getPomFilesLoop os sourceRoot a m).andThen (getPomFilesLoop os sourceRoot b) := by
  induction a generalizing m with
  | nil =>
    rw [List.nil_append, getPomFilesLoop, Run.pure_eq, Run.ret_andThen]
  | cons f a ih =>
    rw [List.cons_append, getPomFilesLoop_cons, getPomFilesLoop_cons, Run.andThen_assoc]
    congr 1
    funext m'
    exact ih m'

theorem pomStep_skip (os : OS) (sourceRoot file : String) (m : GoMap Unit)
    (calls : List Call) (h : getPomFile os sourceRoot file = ⟨calls, .ok ""⟩) :
    pomStep os sourceRoot file m = ⟨calls, .ok m⟩ := by
  simp [pomStep, h, Run.andThen, Run.ret]

theorem pomStep_out_error (os : OS) (sourceRoot file : String) (m : GoMap Unit)
    (e : GoError) (h : (getPomFile os sourceRoot file).out = .error e) :
    (pomStep os sourceRoot file m).out = .error e :=
  Run.andThen_out_error _ _ e h

/-- A file whose round leaves the map as it is does not change the outcome of the loop. -/
theorem getPomFilesLoop_out_skip (os : OS) (sourceRoot file : String)
    (before after : List String) (m : GoMap Unit)
    (h : ∀ m' : GoMap Unit, (pomStep os sourceRoot file m').out = .ok m') :
    (getPomFilesLoop os sourceRoot (before ++ file :: after) m).out =
      (getPomFilesLoop os sourceRoot (before ++ after) m).out := by
  rw [getPomFilesLoop_append, getPomFilesLoop_append]
  apply Run.andThen_out_congr _ _ _ _ rfl
  intro m'
  rw [getPomFilesLoop_cons, Run.andThen_out_ok _ _ m' (h m')]

/-- A file whose round is fatal makes the loop fatal. -/
theorem getPomFilesLoop_out_fatal (os : OS) (sourceRoot file : String)
    (before after : List String) (m : GoMap Unit) (e : GoError)
    (h : ∀ m' : GoMap Unit, (pomStep os sourceRoot file m').out = .error e) :
    ∃ e', (getPomFilesLoop os sourceRoot (before ++ file :: after) m).out = .error e' := by
  rw [getPomFilesLoop_append]
  cases hb : (getPomFilesLoop os sourceRoot before m).out with
  | error e0 => exact ⟨e0, Run.andThen_out_error _ _ e0 hb⟩
  | ok m' =>
    refine ⟨e, ?_⟩
    rw [Run.andThen_out_ok _ _ m' hb, getPomFilesLoop_cons]
    exact Run.andThen_out_error _ _ e (h m')

/-! ## The claims about `getPomFile` and `getPomFiles` -/

/-- C3: for a path that contains `/src/` and does not contain `pom.xml`, the part `pre`
of the path before the first `/src/` exists, `getPomFile` lists exactly the directory
`filepath.Join(repo, pre)`, and when that listing has an entry named `pom.xml` it returns
`filepath.Join(filepath.Join(repo, pre), "pom.xml")`. -/
theorem getPomFile_module_root (os : OS) (repo path : String)
    (hsrc : Occurs "/src/" path) (hpom : ¬ Occurs "pom.xml" path) :
    (∃ pre, BeforeFirst "/src/" path pre) ∧
      ∀ pre, BeforeFirst "/src/" path pre →
        (getPomFile os repo path).calls = [Call.ReadDir (os.Join repo pre)] ∧
        ∀ entries : List String, os.ReadDir (os.Join repo pre) = .ok entries →
          "pom.xml" ∈ entries →
          (getPomFile os repo path).out = .ok (os.Join (os.Join repo pre) "pom.xml") := by
  refine ⟨exists_beforeFirst "/src/" path hsrc, ?_⟩
  intro pre hpre
  rw [getPomFile_under_src os repo path pre hpre hpom]
  constructor
  · cases h : os.ReadDir (os.Join repo pre) <;> simp [Run.call, Run.andThen, Run.ret]
  · intro entries hdir hmem
    simp [hdir, Run.call, Run.andThen, Run.ret, findPomEntry_mem os _ entries hmem, PomFile]

theorem getPomFile_module_root_witness :
    (getPomFile osModuleM "/repo" "M/src/main/src/X.java").calls = [Call.ReadDir "/repo/M"] ∧
      (getPomFile osModuleM "/repo" "M/src/main/src/X.java").out = .ok "/repo/M/pom.xml" :=
  have h := (getPomFile_module_root osModuleM "/repo" "M/src/main/src/X.java"
    ((occurs_iff_Contains _ _).2 (by decide))
    (fun hp => absurd ((occurs_iff_Contains _ _).1 hp) (by decide))).2 "M"
    (beforeFirst_of_indexChars "/src/" "M/src/main/src/X.java" 1 (by decide))
  ⟨h.1, h.2 ["pom.xml", "src"] (by decide) (by decide)⟩

/-- C4: a path that contains neither `/src/` nor `pom.xml` makes `getPomFile` return the
empty string without any outside call, and `getPomFiles` behaves on a list with that path
exactly as on the list without it: no key is added for it, and the files before and after
it are processed as usual. -/
theorem getPomFiles_skips_out_of_convention (os : OS) (repo path : String)
    (hsrc : ¬ Occurs "/src/" path) (hpom : ¬ Occurs "pom.xml" path) :
    getPomFile os repo path = ⟨[], .ok ""⟩ ∧
      ∀ before after : List String,
        getPomFiles os (before ++ path :: after) repo =
          getPomFiles os (before ++ after) repo := by
  have hget := getPomFile_out_of_convention os repo path hsrc hpom
  refine ⟨hget, ?_⟩
  intro before after
  unfold getPomFiles
  rw [getPomFilesLoop_append, getPomFilesLoop_append]
  congr 1
  funext m'
  rw [getPomFilesLoop_cons, pomStep_skip os repo path m' [] hget]
  exact Run.ret_andThen m' _

theorem getPomFiles_skips_out_of_convention_witness :
    getPomFile osModuleM "/repo" "docs/design/README.md" = ⟨[], .ok ""⟩ ∧
      getPomFiles osModuleM (["M/src/A.java"] ++ "docs/design/README.md" :: ["M/src/B.java"])
          "/repo" =
        getPomFiles osModuleM (["M/src/A.java"] ++ ["M/src/B.java"]) "/repo" :=
  have h := getPomFiles_skips_out_of_convention osModuleM "/repo" "docs/design/README.md"
    (fun hp => absurd ((occurs_iff_Contains _ _).1 hp) (by decide))
    (fun hp => absurd ((occurs_iff_Contains _ _).1 hp) (by decide))
  ⟨h.1, h.2 ["M/src/A.java"] ["M/src/B.java"]⟩

/-- C5, as the code has it: the module root `M` exists and has no entry named `pom.xml`;
`getPomFile` returns the empty string for `M/src/X.java`, and `getPomFiles` ends normally,
without a key for that file and with the key of the file after it. -/
theorem missing_descriptor_is_skipped :
    BeforeFirst "/src/" "M/src/X.java" "M" ∧
      osNoDescriptor.ReadDir (osNoDescriptor.Join "/repo" "M") = .ok ["src"] ∧
      "pom.xml" ∉ ["src"] ∧
      getPomFile osNoDescriptor "/repo" "M/src/X.java" = ⟨[Call.ReadDir "/repo/M"], .ok ""⟩ ∧
      getPomFiles osNoDescriptor ["M/src/X.java", "N/src/Y.java"] "/repo" =
        ⟨[Call.ReadDir "/repo/M", Call.ReadDir "/repo/N"],
          .ok (.alloc [("/repo/N/pom.xml", ())])⟩ :=
  ⟨beforeFirst_of_indexChars "/src/" "M/src/X.java" 1 (by decide), by decide, by decide,
    by decide, by decide⟩

/-- C5, amended: for a path that contains `/src/` and does not contain `pom.xml`, with
`pre` the part before the first `/src/`: when listing `filepath.Join(repo, pre)` fails,
`getPomFile` ends with that error and `getPomFiles` on any list with this path ends with
an error; when the listing succeeds and has no entry named `pom.xml`, `getPomFile` returns
the empty string and `getPomFiles` has the same outcome as on the list without the path. -/
theorem getPomFile_missing_descriptor (os : OS) (repo path pre : String)
    (hpre : BeforeFirst "/src/" path pre) (hpom : ¬ Occurs "pom.xml" path) :
    (∀ msg : String, os.ReadDir (os.Join repo pre) = .error msg →
        getPomFile os repo path = ⟨[Call.ReadDir (os.Join repo pre)], .error (.lib msg)⟩ ∧
        ∀ before after : List String,
          ∃ e, (getPomFiles os (before ++ path :: after) repo).out = .error e) ∧
      (∀ entries : List String, os.ReadDir (os.Join repo pre) = .ok entries →
        "pom.xml" ∉ entries →
        getPomFile os repo path = ⟨[Call.ReadDir (os.Join repo pre)], .ok ""⟩ ∧
        ∀ before after : List String,
          (getPomFiles os (before ++ path :: after) repo).out =
            (getPomFiles os (before ++ after) repo).out) := by
  have hrun := getPomFile_under_src os repo path pre hpre hpom
  constructor
  · intro msg hdir
    have hget : getPomFile os repo path =
        ⟨[Call.ReadDir (os.Join repo pre)], .error (.lib msg)⟩ := by
      rw [hrun]; simp [hdir, Run.call, Run.andThen]
    refine ⟨hget, ?_⟩
    intro before after
    exact getPomFilesLoop_out_fatal os repo path before after _ (.lib msg)
      (fun m' => pomStep_out_error os repo path m' _ (by rw [hget]))
  · intro entries hdir hmem
    have hget : getPomFile os repo path = ⟨[Call.ReadDir (os.Join repo pre)], .ok ""⟩ := by
      rw [hrun]
      simp [hdir, Run.call, Run.andThen, Run.ret, findPomEntry_not_mem os _ entries hmem]
    refine ⟨hget, ?_⟩
    intro before after
    exact getPomFilesLoop_out_skip os repo path before after _
      (fun m' => by rw [pomStep_skip os repo path m' _ hget])

theorem getPomFile_missing_descriptor_witness :
    (getPomFile osNoDescriptor "/repo" "K/src/X.java" =
        ⟨[Call.ReadDir "/repo/K"], .error (.lib "open /repo/K: no such file or directory")⟩ ∧
      ∃ e, (getPomFiles osNoDescriptor (["N/src/Y.java"] ++ "K/src/X.java" :: []) "/repo").out
        = .error e) ∧
    (getPomFile osNoDescriptor "/repo" "M/src/Z.java" = ⟨[Call.ReadDir "/repo/M"], .ok ""⟩ ∧
      (getPomFiles osNoDescriptor (["N/src/Y.java"] ++ "M/src/Z.java" :: []) "/repo").out =
        (getPomFiles osNoDescriptor (["N/src/Y.java"] ++ []) "/repo").out) :=
  have hK := (getPomFile_missing_descriptor osNoDescriptor "/repo" "K/src/X.java" "K"
    (beforeFirst_of_indexChars "/src/" "K/src/X.java" 1 (by decide))
    (fun hp => absurd ((occurs_iff_Contains _ _).1 hp) (by decide))).1
      "open /repo/K: no such file or directory" (by decide)
  have hM := (getPomFile_missing_descriptor osNoDescriptor "/repo" "M/src/Z.java" "M"
    (beforeFirst_of_indexChars "/src/" "M/src/Z.java" 1 (by decide))
    (fun hp => absurd ((occurs_iff_Contains _ _).1 hp) (by decide))).2
      ["src"] (by decide) (by decide)
  ⟨⟨hK.1, hK.2 ["N/src/Y.java"] []⟩, ⟨hM.1, hM.2 ["N/src/Y.java"] []⟩⟩

/-- C7: a path whose final component is `pom.xml` is returned by `getPomFile` as it is,
without any outside call, whatever else the path contains. -/
theorem getPomFile_descriptor_path (os : OS) (repo path : String)
    (h : finalComponent path = "pom.xml") :
    getPomFile os repo path = ⟨[], .ok path⟩ :=
  getPomFile_of_occurs_pom os repo path (occurs_of_finalComponent path PomFile h)

theorem getPomFile_descriptor_path_witness :
    finalComponent "M/src/it/pom.xml" = "pom.xml" ∧
      getPomFile osModuleM "/repo" "M/src/it/pom.xml" = ⟨[], .ok "M/src/it/pom.xml"⟩ :=
  ⟨by decide, getPomFile_descriptor_path osModuleM "/repo" "M/src/it/pom.xml" (by decide)⟩

/-- C10, at the failing inputs: the final component of `M/pom.xml.bak` is not `pom.xml`
and the path has no `/src/`, yet `getPomFile` returns the path itself instead of the empty
string; `M/src/pom.xml.d/X.java` lies under `M/src/`, yet `getPomFile` returns the path
itself instead of the descriptor of `M`. -/
theorem getPomFile_shortcut_on_substring :
    finalComponent "M/pom.xml.bak" ≠ "pom.xml" ∧
      Index "M/pom.xml.bak" "/src/" = -1 ∧
      getPomFile osModuleM "/repo" "M/pom.xml.bak" = ⟨[], .ok "M/pom.xml.bak"⟩ ∧
      finalComponent "M/src/pom.xml.d/X.java" ≠ "pom.xml" ∧
      Index "M/src/pom.xml.d/X.java" "/src/" = 1 ∧
      getPomFile osModuleM "/repo" "M/src/pom.xml.d/X.java" =
        ⟨[], .ok "M/src/pom.xml.d/X.java"⟩ := by
  decide

/-- C6, at the failing input: the descriptor of module `M` and a source file of `M` both
changed; `getPomFiles` returns a map with two keys, `M/pom.xml` and `/repo/M/pom.xml`, and
the module list of `main` names the module `m` twice. -/
theorem getPomFiles_one_module_two_keys :
    getPomFiles osModuleM ["M/pom.xml", "M/src/main/X.java"] "/repo" =
        ⟨[Call.ReadDir "/repo/M"],
          .ok (.alloc [("M/pom.xml", ()), ("/repo/M/pom.xml", ())])⟩ ∧
      (mainModules osModuleM
          (repoOf [] [entryOf StatusWtModified "M/pom.xml",
            entryOf StatusWtModified "M/src/main/X.java"])
          "/repo" "0123456" "0123456789abcdef0123456789abcdef01234567").out =
        .ok ["m", "m"] := by
  decide

/-- C1, at the failing input: a file staged as modified and modified again in the working
directory has both the index-modified and the workdir-modified flag set; the loop of
`uncommittedModulePomFiles` passes no path for it, so the scan finds nothing, while the
same file with the workdir-modified flag alone is passed on. -/
theorem uncommittedFiles_drops_combined_status :
    hasFlag 258 StatusIndexModified = true ∧ hasFlag 258 StatusWtModified = true ∧
      uncommittedFiles [entryOf 258 "M/src/main/X.java"] = [] ∧
      uncommittedModulePomFiles osModuleM (repoOf [] [entryOf 258 "M/src/main/X.java"])
        "/repo" = ⟨[Call.StatusList], .ok (.alloc [])⟩ ∧
      uncommittedFiles [entryOf StatusWtModified "M/src/main/X.java"] =
        ["M/src/main/X.java"] := by
  decide

/-! ## Facts about maps and `mergeMaps` -/

theorem setEntry_keys_mem {V : Type} (k : String) (v : V) (es : List (String × V))
    (k' : String) :
    k' ∈ (setEntry k v es).map Prod.fst ↔ k' = k ∨ k' ∈ es.map Prod.fst := by
  induction es with
  | nil => simp [setEntry]
  | cons e es ih =>
    by_cases h : e.1 = k
    · simp [setEntry, h]
    · simp only [setEntry, h, if_false, List.map_cons, List.mem_cons, ih]
      tauto

theorem setEntry_keys_of_mem {V : Type} (k : String) (v : V) (es : List (String × V))
    (hk : k ∈ es.map Prod.fst) : (setEntry k v es).map Prod.fst = es.map Prod.fst := by
  induction es with
  | nil => simp at hk
  | cons e es ih =>
    by_cases h : e.1 = k
    · simp [setEntry, h]
    · have hk' : k ∈ es.map Prod.fst := by
        rcases List.mem_cons.1 hk with h' | h'
        · exact absurd h'.symm h
        · exact h'
      simp [setEntry, h, ih hk']

theorem setEntry_keys_nodup {V : Type} (k : String) (v : V) (es : List (String × V))
    (hn : (es.map Prod.fst).Nodup) : ((setEntry k v es).map Prod.fst).Nodup := by
  induction es with
  | nil => simp [setEntry]
  | cons e es ih =>
    rw [List.map_cons, List.nodup_cons] at hn
    by_cases h : e.1 = k
    · simp only [setEntry, h, if_true, List.map_cons, List.nodup_cons]
      exact ⟨h ▸ hn.1, hn.2⟩
    · simp only [setEntry, h, if_false, List.map_cons, List.nodup_cons]
      refine ⟨?_, ih hn.2⟩
      rw [setEntry_keys_mem]
      rintro (h' | h')
      · exact h h'
      · exact hn.1 h'

/-- The loop of `mergeMaps` into an allocated map never panics; its result has the keys of
both sides, keeps keys distinct, and keeps the key list when nothing new is stored. -/
theorem mergeMapsLoop_alloc {V : Type} (l : List (String × V)) :
    ∀ es : List (String × V), ∃ es', mergeMapsLoop l (.alloc es) = .ok (.alloc es') ∧
      (∀ k, k ∈ es'.map Prod.fst ↔ k ∈ l.map Prod.fst ∨ k ∈ es.map Prod.fst) ∧
      ((es.map Prod.fst).Nodup → (es'.map Prod.fst).Nodup) ∧
      ((∀ k ∈ l.map Prod.fst, k ∈ es.map Prod.fst) → es'.map Prod.fst = es.map Prod.fst) := by
  induction l with
  | nil =>
    intro es
    exact ⟨es, rfl, by simp, id, fun _ => rfl⟩
  | cons kv l ih =>
    intro es
    obtain ⟨k, v⟩ := kv
    obtain ⟨es', hrun, hmem, hnodup, hsame⟩ := ih (setEntry k v es)
    refine ⟨es', ?_, ?_, ?_, ?_⟩
    · simp only [mergeMapsLoop, GoMap.assign]
      exact hrun
    · intro k'
      rw [hmem k', setEntry_keys_mem]
      simp only [List.map_cons, List.mem_cons]
      tauto
    · intro hn
      exact hnodup (setEntry_keys_nodup k v es hn)
    · intro hall
      have hk : k ∈ es.map Prod.fst := hall k (by simp)
      have hkeys := setEntry_keys_of_mem k v es hk
      rw [hsame (fun k' hk' => by rw [hkeys]; exact hall k' (by simp [hk'])), hkeys]

theorem GoMap.keys_of_len_zero {V : Type} (m : GoMap V) (h : m.len = 0) : m.keys = [] := by
  unfold GoMap.len at h
  unfold GoMap.keys
  rw [List.length_eq_zero.1 h]
  rfl

theorem GoMap.alloc_of_len_ne_zero {V : Type} (m : GoMap V) (h : m.len ≠ 0) :
    ∃ es, m = .alloc es := by
  cases m with
  | nilMap => exact absurd rfl h
  | alloc es => exact ⟨es, rfl⟩

/-- The function `mergeMaps` never panics and returns a map whose keys are those of either
argument, all distinct when the arguments are well formed. -/
theorem mergeMaps_union {V : Type} (map1 map2 : GoMap V) :
    ∃ merged, mergeMaps map1 map2 = .ok merged ∧
      (∀ k, k ∈ merged.keys ↔ k ∈ map1.keys ∨ k ∈ map2.keys) ∧
      (map1.WF → map2.WF → merged.WF) := by
  by_cases h1 : map1.len = 0
  · refine ⟨map2, by simp [mergeMaps, h1], ?_, fun _ h => h⟩
    intro k
    simp [GoMap.keys_of_len_zero map1 h1]
  · by_cases h2 : map2.len = 0
    · refine ⟨map1, by simp [mergeMaps, h1, h2], ?_, fun h _ => h⟩
      intro k
      simp [GoMap.keys_of_len_zero map2 h2]
    · obtain ⟨es, rfl⟩ := GoMap.alloc_of_len_ne_zero map2 h2
      obtain ⟨es', hrun, hmem, hnodup, _⟩ := mergeMapsLoop_alloc map1.entries es
      refine ⟨.alloc es', by simp [mergeMaps, h1, h2, hrun], hmem, fun _ h => hnodup h⟩

theorem mergeMaps_self {V : Type} (map1 : GoMap V) :
    ∃ merged, mergeMaps map1 map1 = .ok merged ∧ merged.keys = map1.keys := by
  by_cases h1 : map1.len = 0
  · exact ⟨map1, by simp [mergeMaps, h1], rfl⟩
  · obtain ⟨es, rfl⟩ := GoMap.alloc_of_len_ne_zero map1 h1
    obtain ⟨es', hrun, _, _, hsame⟩ := mergeMapsLoop_alloc es es
    refine ⟨.alloc es', ?_, hsame (fun _ h => h)⟩
    simp only [mergeMaps, h1, if_false]
    exact hrun

/-! ## The claim about `mergeMaps` -/

/-- C2: for all maps `map1` and `map2` with distinct keys each, nil and empty maps
included, `mergeMaps(map1, map2)` returns a map whose keys are exactly the keys of `map1`
together with the keys of `map2`, each once; merging with an empty map gives the keys of
the other map, `mergeMaps(map2, map1)` has the same keys, and `mergeMaps(map1, map1)` has
the keys of `map1`. -/
theorem mergeMaps_keys {V : Type} (map1 map2 : GoMap V) (h1 : map1.WF) (h2 : map2.WF) :
    ∃ merged, mergeMaps map1 map2 = .ok merged ∧
      (∀ k, k ∈ merged.keys ↔ k ∈ map1.keys ∨ k ∈ map2.keys) ∧
      merged.keys.Nodup ∧
      (map1.len = 0 → merged.keys = map2.keys) ∧
      (map2.len = 0 → merged.keys = map1.keys) ∧
      (∃ swapped, mergeMaps map2 map1 = .ok swapped ∧
        ∀ k, k ∈ merged.keys ↔ k ∈ swapped.keys) ∧
      (∃ twice, mergeMaps map1 map1 = .ok twice ∧ twice.keys = map1.keys) := by
  obtain ⟨merged, hrun, hmem, hwf⟩ := mergeMaps_union map1 map2
  obtain ⟨swapped, hrun', hmem', _⟩ := mergeMaps_union map2 map1
  refine ⟨merged, hrun, hmem, hwf h1 h2, ?_, ?_, ⟨swapped, hrun', ?_⟩, mergeMaps_self map1⟩
  · intro h0
    have : mergeMaps map1 map2 = .ok map2 := by simp [mergeMaps, h0]
    rw [this] at hrun
    cases hrun
    rfl
  · intro h0
    by_cases h10 : map1.len = 0
    · have : mergeMaps map1 map2 = .ok map2 := by simp [mergeMaps, h10]
      rw [this] at hrun
      cases hrun
      rw [GoMap.keys_of_len_zero _ h0, GoMap.keys_of_len_zero _ h10]
    · have : mergeMaps map1 map2 = .ok map1 := by simp [mergeMaps, h10, h0]
      rw [this] at hrun
      cases hrun
      rfl
  · intro k
    rw [hmem k, hmem' k]
    exact Or.comm

theorem mergeMaps_keys_witness :
    ∃ merged, mergeMaps (GoMap.alloc [("a/pom.xml", ()), ("b/pom.xml", ())])
        (GoMap.alloc [("b/pom.xml", ()), ("c/pom.xml", ())]) = .ok merged ∧
      merged.keys = ["b/pom.xml", "c/pom.xml", "a/pom.xml"] ∧ merged.keys.Nodup :=
  have h := mergeMaps_keys (GoMap.alloc [("a/pom.xml", ()), ("b/pom.xml", ())])
    (GoMap.alloc [("b/pom.xml", ()), ("c/pom.xml", ())]) (by decide) (by decide)
  h.elim fun merged hm => ⟨merged, hm.1, by
    have := hm.1
    have h' : mergeMaps (GoMap.alloc [("a/pom.xml", ()), ("b/pom.xml", ())])
        (GoMap.alloc [("b/pom.xml", ()), ("c/pom.xml", ())]) =
        .ok (GoMap.alloc [("b/pom.xml", ()), ("c/pom.xml", ()), ("a/pom.xml", ())]) := by
      decide
    rw [h'] at this
    cases this
    rfl, hm.2.2.1⟩

/-! ## Facts about chains of library calls -/

/-- Three library calls in a row, each on the result of the one before: the first call is
made, the chain produces a value exactly when all three calls do, and otherwise it ends
with the error of the first call that fails, which is never an error of `fmt.Errorf`. -/
theorem callChain_spec (msg0 : String) (c1 : Call) (r1 : Except String Nat)
    (c2 c3 : Nat → Call)
    (f2 f3 : Nat → Except String Nat) :
    ¬ ((Run.call c1 r1).andThen (fun a => (Run.call (c2 a) (f2 a)).andThen
        (fun b => (Run.call (c3 b) (f3 b)).andThen Run.ret))).out =
          .error (.errorf msg0) ∧
      ((Run.call c1 r1).andThen (fun a => (Run.call (c2 a) (f2 a)).andThen
        (fun b => (Run.call (c3 b) (f3 b)).andThen Run.ret))).calls.head? = some c1 ∧
      (∀ t, ((Run.call c1 r1).andThen (fun a => (Run.call (c2 a) (f2 a)).andThen
        (fun b => (Run.call (c3 b) (f3 b)).andThen Run.ret))).out = .ok t ↔
          ∃ a b, r1 = .ok a ∧ f2 a = .ok b ∧ f3 b = .ok t) ∧
      (∀ msg, r1 = .error msg →
        ((Run.call c1 r1).andThen (fun a => (Run.call (c2 a) (f2 a)).andThen
          (fun b => (Run.call (c3 b) (f3 b)).andThen Run.ret))).out = .error (.lib msg)) ∧
      (∀ a msg, r1 = .ok a → f2 a = .error msg →
        ((Run.call c1 r1).andThen (fun a => (Run.call (c2 a) (f2 a)).andThen
          (fun b => (Run.call (c3 b) (f3 b)).andThen Run.ret))).out = .error (.lib msg)) ∧
      (∀ a b msg, r1 = .ok a → f2 a = .ok b → f3 b = .error msg →
        ((Run.call c1 r1).andThen (fun a => (Run.call (c2 a) (f2 a)).andThen
          (fun b => (Run.call (c3 b) (f3 b)).andThen Run.ret))).out = .error (.lib msg)) := by
  cases h1 : r1 with
  | error m1 => simp [Run.call, Run.andThen]
  | ok a =>
    cases h2 : f2 a with
    | error m2 =>
      simp only [Run.call, Run.andThen, h2]
      refine ⟨by simp, by simp, ?_, by simp, ?_, ?_⟩
      · intro t
        simp only [false_iff, not_exists, reduceCtorEq]
        rintro a' b' ⟨ha, hb, _⟩
        cases ha
        rw [h2] at hb
        cases hb
      · intro a' msg ha hb
        cases ha
        rw [h2] at hb
        cases hb
        rfl
      · intro a' b' msg ha hb _
        cases ha
        rw [h2] at hb
        cases hb
    | ok b =>
      cases h3 : f3 b with
      | error m3 =>
        simp only [Run.call, Run.andThen, Run.ret, h2, h3]
        refine ⟨by simp, by simp, ?_, by simp, ?_, ?_⟩
        · intro t
          simp only [false_iff, not_exists, reduceCtorEq]
          rintro a' b' ⟨ha, hb, hc⟩
          cases ha
          rw [h2] at hb
          cases hb
          rw [h3] at hc
          cases hc
        · intro a' msg ha hb
          cases ha
          rw [h2] at hb
          cases hb
        · intro a' b' msg ha hb hc
          cases ha
          rw [h2] at hb
          cases hb
          rw [h3] at hc
          cases hc
          rfl
      | ok t0 =>
        simp only [Run.call, Run.andThen, Run.ret, h2, h3]
        refine ⟨by simp, by simp, ?_, by simp, ?_, ?_⟩
        · intro t
          constructor
          · intro ht
            cases ht
            exact ⟨a, b, rfl, h2, h3⟩
          · rintro ⟨a', b', ha, hb, hc⟩
            cases ha
            rw [h2] at hb
            cases hb
            rw [h3] at hc
            cases hc
            rfl
        · intro a' msg ha hb
          cases ha
          rw [h2] at hb
          cases hb
        · intro a' b' msg ha hb hc
          cases ha
          rw [h2] at hb
          cases hb
          rw [h3] at hc
          cases hc

theorem getTree_of_len7 (commit : String) (repository : Repository)
    (h : commit.length = 7) :
    getTree commit repository =
      (Run.call (Call.RevparseSingle commit) (repository.RevparseSingle commit)).andThen
        (fun obj => (Run.call (Call.AsCommit obj) (repository.AsCommit obj)).andThen
          (fun c => (Run.call (Call.CommitTree c) (repository.CommitTree c)).andThen
            Run.ret)) := by
  simp only [getTree, h, if_true, Run.bind_eq, Run.pure_eq]

theorem getTree_of_len40 (commit : String) (repository : Repository)
    (h : commit.length = 40) :
    getTree commit repository =
      (Run.call (Call.NewOid commit) (repository.NewOid commit)).andThen
        (fun oid => (Run.call (Call.LookupCommit oid) (repository.LookupCommit oid)).andThen
          (fun c => (Run.call (Call.CommitTree c) (repository.CommitTree c)).andThen
            Run.ret)) := by
  have h7 : ¬ commit.length = 7 := by omega
  simp only [getTree, h, h7, if_true, if_false, Run.bind_eq, Run.pure_eq]
  rfl

/-! ## The claim about `getTree` -/

/-- C8: `getTree` ends with the invalid-commit error exactly when the length of the commit
string is neither 7 nor 40, and then it makes no outside call.  A string of length 7 goes
through `RevparseSingle`, `AsCommit` and `Tree`, a string of length 40 through `NewOid`,
`LookupCommit` and `Tree`; in both cases a tree is returned exactly when every step
succeeds, and the error of the first failing step is returned otherwise. -/
theorem getTree_spec (commit : String) (repository : Repository) :
    ((getTree commit repository).out = .error (invalidCommit commit) ↔
        (commit.length ≠ 7 ∧ commit.length ≠ 40)) ∧
      (commit.length ≠ 7 → commit.length ≠ 40 → (getTree commit repository).calls = []) ∧
      (commit.length = 7 →
        (getTree commit repository).calls.head? = some (Call.RevparseSingle commit) ∧
        (∀ tree, (getTree commit repository).out = .ok tree ↔
          ∃ obj c, repository.RevparseSingle commit = .ok obj ∧
            repository.AsCommit obj = .ok c ∧ repository.CommitTree c = .ok tree) ∧
        (∀ msg, repository.RevparseSingle commit = .error msg →
          (getTree commit repository).out = .error (.lib msg)) ∧
        (∀ obj msg, repository.RevparseSingle commit = .ok obj →
          repository.AsCommit obj = .error msg →
          (getTree commit repository).out = .error (.lib msg)) ∧
        (∀ obj c msg, repository.RevparseSingle commit = .ok obj →
          repository.AsCommit obj = .ok c → repository.CommitTree c = .error msg →
          (getTree commit repository).out = .error (.lib msg))) ∧
      (commit.length = 40 →
        (getTree commit repository).calls.head? = some (Call.NewOid commit) ∧
        (∀ tree, (getTree commit repository).out = .ok tree ↔
          ∃ oid c, repository.NewOid commit = .ok oid ∧
            repository.LookupCommit oid = .ok c ∧ repository.CommitTree c = .ok tree) ∧
        (∀ msg, repository.NewOid commit = .error msg →
          (getTree commit repository).out = .error (.lib msg)) ∧
        (∀ oid msg, repository.NewOid commit = .ok oid →
          repository.LookupCommit oid = .error msg →
          (getTree commit repository).out = .error (.lib msg)) ∧
        (∀ oid c msg, repository.NewOid commit = .ok oid →
          repository.LookupCommit oid = .ok c → repository.CommitTree c = .error msg →
          (getTree commit repository).out = .error (.lib msg))) := by
  by_cases h7 : commit.length = 7
  · have h40 : commit.length ≠ 40 := by omega
    have hc := callChain_spec ("commit [" ++ commit ++ "] is an invalid commit")
      (Call.RevparseSingle commit) (repository.RevparseSingle commit)
      Call.AsCommit Call.CommitTree repository.AsCommit repository.CommitTree
    rw [getTree_of_len7 commit repository h7]
    exact ⟨⟨fun h => absurd h hc.1, fun h => absurd h7 h.1⟩, fun h => absurd h7 h,
      fun _ => hc.2, fun h => absurd h h40⟩
  · by_cases h40 : commit.length = 40
    · have hc := callChain_spec ("commit [" ++ commit ++ "] is an invalid commit")
        (Call.NewOid commit) (repository.NewOid commit)
        Call.LookupCommit Call.CommitTree repository.LookupCommit repository.CommitTree
      rw [getTree_of_len40 commit repository h40]
      exact ⟨⟨fun h => absurd h hc.1, fun h => absurd h40 h.2⟩, fun _ h => absurd h40 h,
        fun h => absurd h h7, fun _ => hc.2⟩
    · have hrun : getTree commit repository = ⟨[], .error (invalidCommit commit)⟩ := by
        simp [getTree, h7, h40, Run.fail]
      rw [hrun]
      exact ⟨⟨fun _ => ⟨h7, h40⟩, fun _ => rfl⟩, fun _ _ => rfl, fun h => absurd h h7,
        fun h => absurd h h40⟩

theorem getTree_spec_witness :
    (getTree "0123456" (repoOf [] [])).calls.head? = some (Call.RevparseSingle "0123456") ∧
      (getTree "0123456" (repoOf [] [])).out = .ok 111 ∧
      (getTree "0123456" (repoWithoutCommits [])).out = .error (.lib "revspec not found") ∧
      (getTree "0123456789abcdef0123456789abcdef01234567" (repoOf [] [])).out = .ok 112 ∧
      (getTree "0123456789abcdef0123456789abcdef01234567" (repoWithoutCommits [])).out =
        .error (.lib "object not found") ∧
      (getTree "01234567" (repoOf [] [])).calls = [] ∧
      (getTree "01234567" (repoOf [] [])).out = .error (invalidCommit "01234567") :=
  have a := (getTree_spec "0123456" (repoOf [] [])).2.2.1 (by decide)
  have b := (getTree_spec "0123456" (repoWithoutCommits [])).2.2.1 (by decide)
  have c := (getTree_spec "0123456789abcdef0123456789abcdef01234567" (repoOf [] [])).2.2.2
    (by decide)
  have d := (getTree_spec "0123456789abcdef0123456789abcdef01234567"
    (repoWithoutCommits [])).2.2.2 (by decide)
  have e := getTree_spec "01234567" (repoOf [] [])
  ⟨a.1, (a.2.1 111).2 ⟨1, 11, rfl, rfl, rfl⟩, b.2.2.1 "revspec not found" rfl,
    (c.2.1 112).2 ⟨2, 12, rfl, rfl, rfl⟩, d.2.2.2.1 2 "object not found" rfl rfl,
    e.2.1 (by decide) (by decide), e.1.2 ⟨by decide, by decide⟩⟩

/-! ## Facts about the calls of the working-tree scan -/

theorem Run.andThen_calls_forall {α β : Type} (P : Call → Prop) (x : Run α)
    (f : α → Run β) (hx : ∀ c ∈ x.calls, P c) (hf : ∀ a, ∀ c ∈ (f a).calls, P c) :
    ∀ c ∈ (x.andThen f).calls, P c := by
  intro c hc
  cases h : x.out with
  | error e =>
    rw [Run.andThen_calls_error x f e h] at hc
    exact hx c hc
  | ok a =>
    rw [Run.andThen_calls_ok x f a h, List.mem_append] at hc
    rcases hc with hc | hc
    · exact hx c hc
    · exact hf a c hc

theorem Run.call_calls {α : Type} (c : Call) (r : Except String α) :
    (Run.call c r).calls = [c] := by
  cases r <;> rfl

theorem Run.call_andThen_mem {α β : Type} (c : Call) (r : Except String α)
    (f : α → Run β) : c ∈ ((Run.call c r).andThen f).calls := by
  cases r <;> simp [Run.call, Run.andThen]

theorem getPomFile_calls (os : OS) (repo path : String) :
    ∀ c ∈ (getPomFile os repo path).calls, isScanCall c := by
  unfold getPomFile
  by_cases hc : Contains path PomFile = true
  · simp [hc, Run.pure_eq, Run.ret]
  · by_cases hi : Index path "/src/" = -1
    · simp [hc, hi, Run.pure_eq, Run.ret]
    · simp only [hc, hi, Bool.false_eq_true, if_false, Run.bind_eq, Run.pure_eq]
      apply Run.andThen_calls_forall
      · simp [Run.ofExcept]
      · intro relativeDir
        apply Run.andThen_calls_forall
        · intro c hmem
          rw [Run.call_calls, List.mem_singleton] at hmem
          exact Or.inr ⟨_, hmem⟩
        · simp [Run.ret]

theorem getPomFilesLoop_calls (os : OS) (sourceRoot : String) (files : List String) :
    ∀ (m : GoMap Unit), ∀ c ∈ (getPomFilesLoop os sourceRoot files m).calls,
      isScanCall c := by
  induction files with
  | nil =>
    intro m
    simp [getPomFilesLoop, Run.pure_eq, Run.ret]
  | cons file rest ih =>
    intro m
    rw [getPomFilesLoop_cons]
    apply Run.andThen_calls_forall
    · unfold pomStep
      apply Run.andThen_calls_forall _ _ _ (getPomFile_calls os sourceRoot file)
      intro pomFile
      by_cases h : pomFile = "" <;> simp [h, Run.ret, Run.ofExcept]
    · exact ih

theorem uncommittedModulePomFiles_calls (os : OS) (repository : Repository)
    (sourceRoot : String) :
    (∀ c ∈ (uncommittedModulePomFiles os repository sourceRoot).calls, isScanCall c) ∧
      Call.StatusList ∈ (uncommittedModulePomFiles os repository sourceRoot).calls := by
  unfold uncommittedModulePomFiles
  rw [Run.bind_eq]
  constructor
  · apply Run.andThen_calls_forall
    · intro c hmem
      rw [Run.call_calls, List.mem_singleton] at hmem
      exact Or.inl hmem
    · intro list
      exact getPomFilesLoop_calls os sourceRoot _ _
  · exact Run.call_andThen_mem _ _ _

/-! ## Facts about `main` -/

theorem sliceTo_seven (s : String) (h : s.length = 40) :
    sliceTo s 7 = .ok ⟨s.data.take 7⟩ := by
  unfold sliceTo
  rw [if_pos ⟨by decide, by rw [h]; decide⟩]
  rfl

theorem mergeMaps_nilMap {V : Type} (m : GoMap V) : mergeMaps GoMap.nilMap m = .ok m := by
  simp [mergeMaps, GoMap.len, GoMap.entries]

/-- The part of `main` after the first seven characters of the head commit are taken. -/
theorem mainAllPomFiles_eq (os : OS) (repository : Repository)
    (sourceRoot oldBuildCommit latestCommit : String) (hlen : latestCommit.length = 40) :
    mainAllPomFiles os repository sourceRoot oldBuildCommit latestCommit =
      (if oldBuildCommit = ⟨latestCommit.data.take 7⟩ then Run.ret GoMap.nilMap
        else mainHistoryDiff os repository sourceRoot oldBuildCommit latestCommit).andThen
        (fun diffMap => (uncommittedModulePomFiles os repository sourceRoot).andThen
          (fun scanMap => Run.ofExcept (mergeMaps diffMap scanMap))) := by
  unfold mainAllPomFiles
  rw [Run.bind_eq, sliceTo_seven latestCommit hlen]
  by_cases h : oldBuildCommit = ⟨latestCommit.data.take 7⟩
  · simp [Run.ofExcept, Run.andThen, h, Run.bind_eq, Run.pure_eq, Run.ret]
  · simp [Run.ofExcept, Run.andThen, h, Run.bind_eq, Run.pure_eq, Run.ret]

/-! ## The claim about `main` -/

/-- C9, as the code has it: the recorded build number differs from the first seven
characters of the head commit and cannot be resolved (it is no longer in the repository,
or it is not 7 or 40 characters long); `main` ends with the error of `getTree` and the
status list is never asked for, although a file is modified in the working tree. -/
theorem main_aborts_before_scan :
    "fedcba9" ≠ String.mk ("0123456789abcdef0123456789abcdef01234567".data.take 7) ∧
      mainAllPomFiles osModuleM
          (repoWithoutCommits [entryOf StatusWtModified "M/src/main/X.java"])
          "/repo" "fedcba9" "0123456789abcdef0123456789abcdef01234567" =
        ⟨[Call.RevparseSingle "fedcba9"], .error (.lib "revspec not found")⟩ ∧
      mainAllPomFiles osModuleM (repoOf [] [entryOf StatusWtModified "M/src/main/X.java"])
          "/repo" "abc" "0123456789abcdef0123456789abcdef01234567" =
        ⟨[], .error (invalidCommit "abc")⟩ ∧
      Call.StatusList ∉ (mainAllPomFiles osModuleM
          (repoWithoutCommits [entryOf StatusWtModified "M/src/main/X.java"])
          "/repo" "fedcba9" "0123456789abcdef0123456789abcdef01234567").calls := by
  decide

/-- C9, amended: for every build number and every head commit id of 40 characters.  When
the build number equals the first seven characters of the head commit id, `main` does
exactly what the working-tree scan does: its only outside calls are the status list, which
it does ask for, and directory listings, and `allPomFiles` is the result of the scan.
When they differ and the history-diff stage ends with a map, the working-tree scan runs
after it and, when the scan ends with a map, `allPomFiles` has exactly the keys of the
two maps; when the history-diff stage ends with an error, `main` ends with that error
after the calls of that stage. -/
theorem main_history_diff_gate (os : OS) (repository : Repository)
    (sourceRoot oldBuildCommit latestCommit : String) (hlen : latestCommit.length = 40) :
    (oldBuildCommit = String.mk (latestCommit.data.take 7) →
        mainAllPomFiles os repository sourceRoot oldBuildCommit latestCommit =
          uncommittedModulePomFiles os repository sourceRoot ∧
        (∀ c ∈ (mainAllPomFiles os repository sourceRoot oldBuildCommit latestCommit).calls,
          c = Call.StatusList ∨ ∃ d, c = Call.ReadDir d) ∧
        Call.StatusList ∈
          (mainAllPomFiles os repository sourceRoot oldBuildCommit latestCommit).calls) ∧
      (oldBuildCommit ≠ String.mk (latestCommit.data.take 7) →
        (∀ diffMap,
          (mainHistoryDiff os repository sourceRoot oldBuildCommit latestCommit).out =
            .ok diffMap →
          (mainAllPomFiles os repository sourceRoot oldBuildCommit latestCommit).calls =
            (mainHistoryDiff os repository sourceRoot oldBuildCommit latestCommit).calls ++
              (uncommittedModulePomFiles os repository sourceRoot).calls ∧
          ∀ scanMap, (uncommittedModulePomFiles os repository sourceRoot).out = .ok scanMap →
            ∃ allPomFiles,
              (mainAllPomFiles os repository sourceRoot oldBuildCommit latestCommit).out =
                .ok allPomFiles ∧
              ∀ k, k ∈ allPomFiles.keys ↔ k ∈ diffMap.keys ∨ k ∈ scanMap.keys) ∧
        (∀ e,
          (mainHistoryDiff os repository sourceRoot oldBuildCommit latestCommit).out =
            .error e →
          mainAllPomFiles os repository sourceRoot oldBuildCommit latestCommit =
            ⟨(mainHistoryDiff os repository sourceRoot oldBuildCommit latestCommit).calls,
              .error e⟩)) := by
  rw [mainAllPomFiles_eq os repository sourceRoot oldBuildCommit latestCommit hlen]
  constructor
  · intro heq
    have hrun : ((if oldBuildCommit = String.mk (latestCommit.data.take 7)
          then Run.ret GoMap.nilMap
          else mainHistoryDiff os repository sourceRoot oldBuildCommit latestCommit).andThen
        (fun diffMap => (uncommittedModulePomFiles os repository sourceRoot).andThen
          (fun scanMap => Run.ofExcept (mergeMaps diffMap scanMap)))) =
        uncommittedModulePomFiles os repository sourceRoot := by
      rw [if_pos heq, Run.ret_andThen]
      have : (fun scanMap : GoMap Unit => Run.ofExcept (mergeMaps GoMap.nilMap scanMap)) =
          Run.ret := by
        funext scanMap
        rw [mergeMaps_nilMap]
        rfl
      rw [this, Run.andThen_ret]
    rw [hrun]
    exact ⟨rfl, (uncommittedModulePomFiles_calls os repository sourceRoot).1,
      (uncommittedModulePomFiles_calls os repository sourceRoot).2⟩
  · intro hne
    rw [if_neg hne]
    constructor
    · intro diffMap hdiff
      constructor
      · rw [Run.andThen_calls_ok _ _ diffMap hdiff]
        congr 1
        cases hs : (uncommittedModulePomFiles os repository sourceRoot).out with
        | error e => exact Run.andThen_calls_error _ _ e hs
        | ok scanMap =>
          rw [Run.andThen_calls_ok _ _ scanMap hs]
          simp [Run.ofExcept]
      · intro scanMap hscan
        obtain ⟨merged, hrun, hmem, _⟩ := mergeMaps_union diffMap scanMap
        refine ⟨merged, ?_, hmem⟩
        rw [Run.andThen_out_ok _ _ diffMap hdiff, Run.andThen_out_ok _ _ scanMap hscan]
        exact hrun
    · intro e herr
      simp [Run.andThen, herr]

theorem main_history_diff_gate_witness :
    mainAllPomFiles osModuleM (repoOf [deltaOf "M/src/main/Y.java"]
        [entryOf StatusWtModified "M/src/main/X.java"])
        "/repo" "0123456" "0123456789abcdef0123456789abcdef01234567" =
      uncommittedModulePomFiles osModuleM (repoOf [deltaOf "M/src/main/Y.java"]
        [entryOf StatusWtModified "M/src/main/X.java"]) "/repo" ∧
    (mainAllPomFiles osModuleM (repoOf [deltaOf "M/src/main/Y.java"]
        [entryOf StatusWtModified "docs/README.md"])
        "/repo" "fedcba9" "0123456789abcdef0123456789abcdef01234567").calls =
      (mainHistoryDiff osModuleM (repoOf [deltaOf "M/src/main/Y.java"]
        [entryOf StatusWtModified "docs/README.md"])
        "/repo" "fedcba9" "0123456789abcdef0123456789abcdef01234567").calls ++
      (uncommittedModulePomFiles osModuleM (repoOf [deltaOf "M/src/main/Y.java"]
        [entryOf StatusWtModified "docs/README.md"]) "/repo").calls :=
  ⟨((main_history_diff_gate osModuleM (repoOf [deltaOf "M/src/main/Y.java"]
      [entryOf StatusWtModified "M/src/main/X.java"])
      "/repo" "0123456" "0123456789abcdef0123456789abcdef01234567" (by decide)).1
        (by decide)).1,
   (((main_history_diff_gate osModuleM (repoOf [deltaOf "M/src/main/Y.java"]
      [entryOf StatusWtModified "docs/README.md"])
      "/repo" "fedcba9" "0123456789abcdef0123456789abcdef01234567" (by decide)).2
        (by decide)).1 (GoMap.alloc [("/repo/M/pom.xml", ())]) (by decide)).1⟩

end BuildEvergage
